import Mathlib

/-
Verification of the tree-view synchronization engine (TreeModelManager /
TreeViewsManager / TreeView ui).

The development shallowly embeds the Node / TreeModel / TreeView code.
JavaScript promises are modelled by explicit state passing: an async
method that mutates a node becomes a function returning the updated node
together with its result.  The single-threaded cooperative scheduling of
the host means operations interleave only at await points; where a claim
is about such an interleaving, the method is split into the segments
delimited by the relevant await and the segments are composed in the
schedule under study.  The data source (TreeViewProvider.loadNodeChildren)
is modelled as a pure function from a node identity to the list of child
descriptors, and the wall clock (Date.now) as an explicit natural-number
clock threaded through the operations that read it.
-/

/-- Descriptor of a tree node as delivered by the data source (the
TreeViewNode interface of tree/domain).  Fields are taken from their uses
in the sources: viewId, nodeUri (absent exactly for the synthetic root),
label, icon, collapseState (present iff the node is expandable), command. -/
structure TreeViewNode where
  viewId : Option String
  nodeUri : Option String
  label : String
  icon : Option String
  collapseState : Option Bool
  command : Option String
deriving DecidableEq

/-- The immutable projection of one node handed to the view layer
(interface NodeView). -/
structure NodeView where
  underlying : TreeViewNode
  level : Nat
  expandable : Bool
  expanded : Bool
deriving DecidableEq

/-- A structural update fired on the tree model's emitter (interface
TreeModelUpdate): the anchor row, the number of currently displayed rows
to replace, the replacement rows, and the navigation flag. -/
structure TreeModelUpdate where
  root : NodeView
  length : Nat
  payload : List NodeView
  focusEvent : Bool
deriving DecidableEq

/-- The mutable state of one class Node instance: its current descriptor
(this.viewNode, replaceable by refreshSubtree), depth, expansion flag,
memoized children cache (undefined until first load, invalidated by
refresh), generation stamp lastTouch, and the one-way defunct flag. -/
inductive Node where
  | mk (viewNode : TreeViewNode) (level : Nat) (expanded : Bool)
       (children : Option (List Node)) (lastTouch : Nat) (defunct : Bool)

def Node.viewNode : Node → TreeViewNode
  | .mk v _ _ _ _ _ => v

def Node.level : Node → Nat
  | .mk _ l _ _ _ _ => l

def Node.expanded : Node → Bool
  | .mk _ _ e _ _ _ => e

def Node.childrenCache : Node → Option (List Node)
  | .mk _ _ _ c _ _ => c

def Node.lastTouch : Node → Nat
  | .mk _ _ _ _ t _ => t

def Node.defunct : Node → Bool
  | .mk _ _ _ _ _ d => d

def Node.setExpanded (n : Node) (b : Bool) : Node :=
  match n with
  | .mk v l _ c t d => .mk v l b c t d

def Node.setCache (n : Node) (c : Option (List Node)) : Node :=
  match n with
  | .mk v l e _ t d => .mk v l e c t d

def Node.setViewNode (n : Node) (v : TreeViewNode) : Node :=
  match n with
  | .mk _ l e c t d => .mk v l e c t d

/-- The data source: TreeViewProvider.loadNodeChildren keyed by the parent
node identity (undefined asks for the children of the root). -/
abbrev Provider := Option String → List TreeViewNode

/-- Node construction (the class constructor): a new node starts
collapsed, with an unresolved children cache, a constructor-time
generation stamp (Date.now(), modelled by the clock value t) and
defunct = false. -/
def freshNode (vn : TreeViewNode) (lvl : Nat) (t : Nat) : Node :=
  .mk vn lvl false none t false

/-- Node.getChildren: if this.children is undefined, load the child
descriptors from the provider, wrap each in a fresh Node at level + 1 and
memoize the list; otherwise return the memoized cache.  The pair returns
the list together with the node carrying the (possibly updated) cache. -/
def getChildren (P : Provider) (t : Nat) (n : Node) : List Node × Node :=
  match n with
  | .mk vn lvl e none lt d =>
    let cs := (P vn.nodeUri).map (fun v => freshNode v (lvl + 1) t)
    (cs, .mk vn lvl e (some cs) lt d)
  | .mk vn lvl e (some cs) lt d => (cs, .mk vn lvl e (some cs) lt d)

/-- The list of children an operation observes when it awaits
getChildren. -/
def effChildren (P : Provider) (t : Nat) (n : Node) : List Node :=
  (getChildren P t n).1

/-- Node.expandable: collapseState present in the descriptor. -/
def Node.expandable (n : Node) : Bool :=
  n.viewNode.collapseState.isSome

/-- Node.makeView: the immutable NodeView projection of this node. -/
def makeView (n : Node) : NodeView :=
  { underlying := n.viewNode, level := n.level,
    expandable := n.expandable, expanded := n.expanded }

mutual
/-- Node.height: 1 if collapsed, else 1 plus the sum of the children's
heights, recomputed from the live expansion state on every call.  When an
expanded node's cache is unresolved, getChildren loads fresh children,
which are all collapsed and so have height 1 each; their height sum is
the number of loaded descriptors, which is inlined here to keep the
recursion structural (heightEff below proves the inlining equal to the
uniform children formula). -/
def height (P : Provider) : Node → Nat
  | .mk _ _ false _ _ _ => 1
  | .mk _ _ true (some cs) _ _ => 1 + heightL P cs
  | .mk vn _ true none _ _ => 1 + (P vn.nodeUri).length

/-- Sum of heights of a list of nodes (the Promise.all fold of
Node.height). -/
def heightL (P : Provider) : List Node → Nat
  | [] => 0
  | c :: cs => height P c + heightL P cs
end

mutual
/-- Node.collectVisibleNodes: the pre-order list of the views of this node
and, below every still-expanded node, of its children.  Freshly loaded
children of an unresolved expanded node are collapsed, so each contributes
exactly its own view (inlined; the stamp passed to freshNode is irrelevant
to the view). -/
def collectVisibleNodes (P : Provider) : Node → List NodeView
  | .mk vn lvl false c lt d => [makeView (.mk vn lvl false c lt d)]
  | .mk vn lvl true (some cs) lt d =>
    makeView (.mk vn lvl true (some cs) lt d) :: collectVisibleNodesL P cs
  | .mk vn lvl true none lt d =>
    makeView (.mk vn lvl true none lt d) ::
      (P vn.nodeUri).map (fun v => makeView (freshNode v (lvl + 1) 0))

/-- The reduce over children in collectVisibleNodes (left to right,
accumulating). -/
def collectVisibleNodesL (P : Provider) : List Node → List NodeView
  | [] => []
  | c :: cs => collectVisibleNodes P c ++ collectVisibleNodesL P cs
end

mutual
/-- Specification device (not a source function): the pre-order list of the
nodes of the currently visible projection, i.e. each node followed by the
visible lists of its children when it is expanded.  collectVisibleNodes is
its image under makeView and height is its length. -/
def visList (P : Provider) : Node → List Node
  | .mk vn lvl false c lt d => [.mk vn lvl false c lt d]
  | .mk vn lvl true (some cs) lt d => .mk vn lvl true (some cs) lt d :: visListL P cs
  | .mk vn lvl true none lt d =>
    .mk vn lvl true none lt d :: (P vn.nodeUri).map (fun v => freshNode v (lvl + 1) 0)

/-- Concatenation of the visible lists of a list of nodes. -/
def visListL (P : Provider) : List Node → List Node
  | [] => []
  | c :: cs => visList P c ++ visListL P cs
end

mutual
/-- Size measure on the cached tree structure, used to drive induction over
nodes (nodes below an unresolved cache are created fresh by getChildren
and are never recursed into by the functions above, so the cache spine is
the right induction skeleton). -/
def nodeSize : Node → Nat
  | .mk _ _ _ none _ _ => 1
  | .mk _ _ _ (some cs) _ _ => 1 + nodeSizeL cs

/-- Sum of sizes of a list of nodes. -/
def nodeSizeL : List Node → Nat
  | [] => 0
  | c :: cs => nodeSize c + nodeSizeL cs
end

theorem nodeSize_pos (n : Node) : 0 < nodeSize n := by
  cases n with
  | mk v l e c t d => cases c <;> simp [nodeSize]

theorem nodeSize_le_of_mem {cs : List Node} {c : Node} (h : c ∈ cs) :
    nodeSize c ≤ nodeSizeL cs := by
  induction cs with
  | nil => cases h
  | cons x xs ih =>
    rcases List.mem_cons.mp h with h1 | h2
    · subst h1; simp [nodeSizeL]
    · have := ih h2; simp [nodeSizeL]; omega

/-- Induction over the cached tree: to prove P for every node it suffices
to prove it for a node assuming it for all members of its cache. -/
theorem Node.cacheInduction (P : Node → Prop)
    (step : ∀ n : Node, (∀ cs, n.childrenCache = some cs → ∀ c ∈ cs, P c) → P n) :
    ∀ n, P n := by
  have H : ∀ k n, nodeSize n ≤ k → P n := by
    intro k
    induction k with
    | zero => intro n hn; have := nodeSize_pos n; omega
    | succ k ih =>
      intro n hn
      apply step
      intro cs hcs c hc
      apply ih
      cases n with
      | mk v l e cc t d =>
        simp [Node.childrenCache] at hcs
        subst hcs
        have h1 := nodeSize_le_of_mem hc
        simp [nodeSize] at hn
        omega
  intro n
  exact H (nodeSize n) n le_rfl

mutual
/-- TreeModel.findNodeOffset, inner fold findNodeOffsetInternal: pre-order
traversal carrying (row count, found).  At each visited node: if the
node's identity equals the target identity (=== also equates two
undefined identities) or the target was already found, stop counting;
otherwise count this row and recurse into the children only if the node
is expanded.  For an expanded node with an unresolved cache the loaded
children are fresh and collapsed, so each of them contributes exactly the
one visited-node step, inlined here as a fold over the descriptors
(findNodeOffsetInternal_fresh below proves the inlining). -/
def findNodeOffsetInternal (P : Provider) (target : Option String) :
    Nat × Bool → Node → Nat × Bool
  | acc, .mk vn _ e c _ _ =>
    if vn.nodeUri == target || acc.2 then (acc.1, true)
    else if e then
      match c with
      | some cs => findNodeOffsetInternalL P target (acc.1 + 1, acc.2) cs
      | none =>
        (P vn.nodeUri).foldl
          (fun z v => if v.nodeUri == target || z.2 then (z.1, true) else (z.1 + 1, z.2))
          (acc.1 + 1, acc.2)
    else (acc.1 + 1, acc.2)

/-- The reduce over the children in findNodeOffsetInternal. -/
def findNodeOffsetInternalL (P : Provider) (target : Option String) :
    Nat × Bool → List Node → Nat × Bool
  | acc, [] => acc
  | acc, c :: cs =>
    findNodeOffsetInternalL P target (findNodeOffsetInternal P target acc c) cs
end

/-- TreeModel.findNodeOffset: run the traversal from the root with
accumulator (0, false); the offset is meaningful only when the identity
was found. -/
def findNodeOffset (P : Provider) (root : Node) (nodeView : NodeView) : Option Nat :=
  let res := findNodeOffsetInternal P nodeView.underlying.nodeUri (0, false) root
  if res.2 then some res.1 else none

mutual
/-- TreeModel.findNodeWithOffsetInternal: offset 0 returns the node
itself; otherwise resolve the children (unconditionally - the code does
not test expanded here) and fold over them with state (height so far,
result): a child whose span [height, height + childHeight) does not reach
the offset is skipped, otherwise recurse into it with the offset made
relative.  For an unresolved cache the loaded fresh children all have
height 1, so the fold reduces to indexing the fresh list at offset - 1,
inlined here (findNodeWithOffsetFold_fresh below proves the inlining). -/
def findNodeWithOffsetInternal (P : Provider) : Node → Nat → Option Node
  | .mk vn lvl e (some cs) lt d, offset =>
    if offset = 0 then some (.mk vn lvl e (some cs) lt d)
    else (findNodeWithOffsetFold P offset (1, none) cs).2
  | .mk vn lvl e none lt d, offset =>
    if offset = 0 then some (.mk vn lvl e none lt d)
    else ((P vn.nodeUri).map (fun v => freshNode v (lvl + 1) 0)).get? (offset - 1)

/-- The reduce over children in findNodeWithOffsetInternal: once a result
is present the state passes through unchanged. -/
def findNodeWithOffsetFold (P : Provider) (offset : Nat) :
    Nat × Option Node → List Node → Nat × Option Node
  | st, [] => st
  | st, c :: cs =>
    if st.2.isSome then findNodeWithOffsetFold P offset st cs
    else
      let ch := height P c
      if st.1 + ch ≤ offset then findNodeWithOffsetFold P offset (st.1 + ch, none) cs
      else findNodeWithOffsetFold P offset (0, findNodeWithOffsetInternal P c (offset - st.1)) cs
end

/-- TreeModel.findNodeWithOffset: the traversal started at the root
node. -/
def findNodeWithOffset (P : Provider) (root : Node) (offset : Nat) : Option Node :=
  findNodeWithOffsetInternal P root offset

mutual
/-- Node.touch: store the clock value into this.lastTouch and, if the node
is expanded, resolve the children and touch them all recursively,
returning (in the code) the stored stamp.  Freshly loaded children are
collapsed, so touching them only sets their stamp; as they were just
created, the net effect is freshNode with stamp t (inlined). -/
def touchNode (P : Provider) (t : Nat) : Node → Node
  | .mk vn lvl false c _ d => .mk vn lvl false c t d
  | .mk vn lvl true (some cs) _ d => .mk vn lvl true (some (touchNodeL P t cs)) t d
  | .mk vn lvl true none _ d =>
    .mk vn lvl true (some ((P vn.nodeUri).map (fun v => freshNode v (lvl + 1) t))) t d

/-- Promise.all over the children in Node.touch. -/
def touchNodeL (P : Provider) (t : Nat) : List Node → List Node
  | [] => []
  | c :: cs => touchNode P t c :: touchNodeL P t cs
end

mutual
/-- Node.markAsDefunct: set the one-way defunct flag and, if the node is
expanded, resolve the children and mark them all recursively.  Freshly
loaded children of an unresolved expanded node are collapsed, so each is
just created and immediately flagged (inlined). -/
def markAsDefunct (P : Provider) (t : Nat) : Node → Node
  | .mk vn lvl false c lt _ => .mk vn lvl false c lt true
  | .mk vn lvl true (some cs) lt _ => .mk vn lvl true (some (markAsDefunctL P t cs)) lt true
  | .mk vn lvl true none lt _ =>
    .mk vn lvl true (some ((P vn.nodeUri).map (fun v => Node.mk v (lvl + 1) false none t true))) lt true

/-- Promise.all over the children in Node.markAsDefunct. -/
def markAsDefunctL (P : Provider) (t : Nat) : List Node → List Node
  | [] => []
  | c :: cs => markAsDefunct P t c :: markAsDefunctL P t cs
end

theorem height_fresh (P : Provider) (v : TreeViewNode) (lvl t : Nat) :
    height P (freshNode v lvl t) = 1 := rfl

theorem heightL_eq_sum (P : Provider) (cs : List Node) :
    heightL P cs = (cs.map (height P)).sum := by
  induction cs with
  | nil => rfl
  | cons c cs ih => simp [heightL, ih]

/-- The inlined unresolved branch of height agrees with the uniform
children formula: for an expanded node, height is 1 plus the sum of the
heights of the children getChildren yields. -/
theorem heightEff (P : Provider) (t : Nat) (n : Node) (he : n.expanded = true) :
    height P n = 1 + ((effChildren P t n).map (height P)).sum := by
  cases n with
  | mk vn lvl e c lt d =>
    simp [Node.expanded] at he
    subst he
    cases c with
    | none =>
      simp [height, effChildren, getChildren, List.map_map]
      have : (height P ∘ fun v => freshNode v (lvl + 1) t) = fun _ => 1 := by
        funext v; rfl
      simp [this]
    | some cs => simp [height, effChildren, getChildren, heightL_eq_sum]

theorem findNodeOffsetInternal_fresh (P : Provider) (target : Option String)
    (acc : Nat × Bool) (v : TreeViewNode) (lvl t : Nat) :
    findNodeOffsetInternal P target acc (freshNode v lvl t) =
      (if v.nodeUri == target || acc.2 then (acc.1, true) else (acc.1 + 1, acc.2)) := rfl

theorem sum_map_le_of_sublist {α : Type} (f : α → Nat) {l1 l2 : List α}
    (h : List.Sublist l1 l2) : (l1.map f).sum ≤ (l2.map f).sum := by
  induction h with
  | slnil => simp
  | cons a h ih => simp; omega
  | cons₂ a h ih => simp; omega

theorem tails_sum_lt {g : List (List (Option String))} (hne : g ≠ [])
    (hall : ∀ l ∈ g, l ≠ []) :
    ((g.map List.tail).map List.length).sum < (g.map List.length).sum := by
  induction g with
  | nil => cases hne rfl
  | cons x xs ih =>
    have hx : x ≠ [] := hall x (List.mem_cons_self x xs)
    have hxlen : x.tail.length = x.length - 1 := by simp [List.length_tail]
    have hxpos : 0 < x.length := List.length_pos.mpr hx
    by_cases hxs : xs = []
    · subst hxs; simp [hxlen]; omega
    · have := ih hxs (fun l hl => hall l (List.mem_cons_of_mem x hl))
      simp [hxlen] at *; omega

mutual
/-- refreshSubtree's helper findOpenNodes: collect, in pre-order, the
identity path of every expanded node of the subtree (the path of the
node itself is curPath; a child's path appends the child's identity,
which in the code may be the undefined value, hence Option String).  A
collapsed node contributes nothing; an expanded node with an unresolved
cache loads fresh collapsed children, which contribute nothing either
(inlined). -/
def findOpenNodes (P : Provider) (acc : List (List (Option String)))
    (curPath : List (Option String)) : Node → List (List (Option String))
  | .mk _ _ false _ _ _ => acc
  | .mk _ _ true (some cs) _ _ => findOpenNodesL P (acc ++ [curPath]) curPath cs
  | .mk _ _ true none _ _ => acc ++ [curPath]

/-- The reduce over children in findOpenNodes. -/
def findOpenNodesL (P : Provider) (acc : List (List (Option String)))
    (curPath : List (Option String)) : List Node → List (List (Option String))
  | [] => acc
  | c :: cs =>
    findOpenNodesL P (findOpenNodes P acc (curPath ++ [c.viewNode.nodeUri]) c) curPath cs
end

/-- refreshSubtree's helper reloadSubtree: when there are open paths,
resolve this node's children (after the refresh cleared the cache this
loads fresh data), group the nonempty open paths by their first segment
(groupBy from util/array, modelled as an order-preserving filter per key,
and looked up at the child's identity), and for every child with a group
re-set expanded = true and recurse with the paths' tails.  Terminates
because the recursion strictly shrinks the total length of the open
paths. -/
def reloadSubtree (P : Provider) (t : Nat) (n : Node)
    (openNodes : List (List (Option String))) : Node :=
  if openNodes.isEmpty then n
  else
    let pr := getChildren P t n
    let filtered := openNodes.filter (fun l => !l.isEmpty)
    let cs2 := pr.1.map (fun c =>
      let g := filtered.filter (fun l => l.head? = some c.viewNode.nodeUri)
      if hg : g.isEmpty then c
      else reloadSubtree P t (c.setExpanded true) (g.map List.tail))
    pr.2.setCache (some cs2)
termination_by (openNodes.map List.length).sum
decreasing_by
  have hsub1 : List.Sublist g filtered := List.filter_sublist _
  have hsub2 : List.Sublist filtered openNodes := List.filter_sublist _
  have hsub : List.Sublist g openNodes := hsub1.trans hsub2
  have hne : g ≠ [] := by
    intro hcon; rw [hcon] at hg; simp at hg
  have hall : ∀ l ∈ g, l ≠ [] := by
    intro l hl
    have hlf : l ∈ filtered := hsub1.subset hl
    have := List.of_mem_filter hlf
    simpa using this
  calc ((g.map List.tail).map List.length).sum
      < (g.map List.length).sum := tails_sum_lt hne hall
    _ ≤ (openNodes.map List.length).sum := sum_map_le_of_sublist _ hsub

/-- Node.refreshSubtree: capture the pre-refresh subtree height; if
expanded, resolve the children and mark them all defunct; collect the
open paths; discard the children cache; replay the open paths against
freshly loaded children (reloadSubtree); install the new descriptor when
one was supplied; and unconditionally emit a structural update replacing
the pre-refresh height many rows with the new visible rows.  Returns the
updated node and the emitted update. -/
def refreshSubtree (P : Provider) (t : Nat) (newViewNode : Option TreeViewNode)
    (n : Node) : Node × TreeModelUpdate :=
  let h := height P n
  let n1 :=
    if n.expanded then
      let pr := getChildren P t n
      pr.2.setCache (some (markAsDefunctL P t pr.1))
    else n
  let openNodes := findOpenNodes P [] [] n1
  let n2 := n1.setCache none
  let n3 := reloadSubtree P t n2 openNodes
  let n4 :=
    match newViewNode with
    | some v => n3.setViewNode v
    | none => n3
  let visible := collectVisibleNodes P n4
  (n4, { root := makeView n4, length := h, payload := visible, focusEvent := false })

/-- The state shared by the operations on one node: the node object
itself, the updates fired on the model emitter so far, the visibility
notifications sent to the data source so far (identity, collapsed flag),
and the clock. -/
structure World where
  node : Node
  events : List TreeModelUpdate
  notes : List (Option String × Bool)
  clock : Nat

/-- First segment of Node.expand, up to the suspension at the child
resolution await (the line: await this.getChildren()): the defunct guard
(returning none to model the immediate return false), the visibility
notification, setting expanded = true and the touch that records the
generation stamp curState (returned as some curState).  The touch has
awaits of its own; in the schedules studied here it runs to completion
inside this segment. -/
def expandBegin (P : Provider) (w : World) : World × Option Nat :=
  if w.node.defunct then (w, none)
  else
    let t := w.clock + 1
    let n2 := touchNode P t (w.node.setExpanded true)
    ({ node := n2, events := w.events,
       notes := w.notes ++ [(w.node.viewNode.nodeUri, false)], clock := t }, some t)

/-- Remaining segment of Node.expand after the suspension: resolve the
children (await this.getChildren()), collect the visible rows, and emit
the structural update only if the recorded stamp still equals
this.lastTouch and the node has not been marked defunct meanwhile;
otherwise the result is suppressed and expand returns false. -/
def expandFinish (P : Provider) (w : World) (curState : Nat) : World × Bool :=
  let n1 := (getChildren P w.clock w.node).2
  let visible := collectVisibleNodes P n1
  if curState == n1.lastTouch && !n1.defunct then
    ({ w with
        node := n1,
        events := w.events ++
          [{ root := makeView n1, length := 1, payload := visible, focusEvent := false }] },
     true)
  else ({ w with node := n1 }, false)

/-- Node.expand run without interference: the two segments in direct
sequence. -/
def expandRun (P : Provider) (w : World) : World × Bool :=
  match expandBegin P w with
  | (w1, none) => (w1, false)
  | (w1, some c) => expandFinish P w1 c

/-- Node.collapse run without interference: the defunct guard, the
collapse notification, the touch recording curState, the subtree height
computed while still expanded (before flipping this.expanded), then
expanded = false and the guarded emission replacing that height many rows
with the node's own (now collapsed) row. -/
def collapseRun (P : Provider) (w : World) : World × Bool :=
  if w.node.defunct then (w, false)
  else
    let t := w.clock + 1
    let n1 := touchNode P t w.node
    let h := height P n1
    let n2 := n1.setExpanded false
    let w1 : World :=
      { node := n2, events := w.events,
        notes := w.notes ++ [(w.node.viewNode.nodeUri, true)], clock := t }
    if t == n2.lastTouch && !n2.defunct then
      ({ w1 with events := w1.events ++
          [{ root := makeView n2, length := h, payload := [makeView n2], focusEvent := false }] },
       true)
    else (w1, false)

/-- One full run of Node.refreshSubtree on the world's node (the model's
reaction to a push notification), appending the update it always
emits. -/
def refreshStep (P : Provider) (newViewNode : Option TreeViewNode) (w : World) : World :=
  let pr := refreshSubtree P w.clock newViewNode w.node
  { w with node := pr.1, events := w.events ++ [pr.2] }

/-- A JavaScript number-or-undefined value, as far as the reconciler's
offset computation observes it: findNodeOffset resolves to a number or to
undefined, and subtracting 1 from undefined yields NaN. -/
inductive JsVal where
  | undef
  | nan
  | int (n : Int)
deriving DecidableEq

/-- The value of the await of findNodeOffset inside handleModelUpdates. -/
def jsOfLookup : Option Nat → JsVal
  | none => .undef
  | some k => .int k

/-- JavaScript subtraction of 1: undefined - 1 and NaN - 1 are NaN. -/
def jsSubOne : JsVal → JsVal
  | .undef => .nan
  | .nan => .nan
  | .int n => .int (n - 1)

/-- The strict-equality test offset === undefined. -/
def JsVal.isUndefined : JsVal → Bool
  | .undef => true
  | _ => false

/-- An update after the hidden-root rewrite at the top of
handleModelUpdates: its anchor slot holds payload[1], which is the
undefined value when the payload has fewer than two rows. -/
structure QueuedUpdate where
  root : Option NodeView
  length : Int
  payload : List NodeView
  focusEvent : Bool
deriving DecidableEq

/-- TreeView.handleModelUpdates, hidden-root rewrite: when the incoming
update's anchor is the root sentinel (identity undefined), the update is
rewritten to address the top-level rows directly, dropping the sentinel
row: anchor payload[1], length - 1, payload.slice(1).  Other updates pass
through unchanged. -/
def rewriteUpdate (ev0 : TreeModelUpdate) : QueuedUpdate :=
  if ev0.root.underlying.nodeUri.isNone then
    { root := ev0.payload.get? 1, length := (ev0.length : Int) - 1,
      payload := ev0.payload.drop 1, focusEvent := ev0.focusEvent }
  else
    { root := some ev0.root, length := (ev0.length : Int),
      payload := ev0.payload, focusEvent := ev0.focusEvent }

/-- Outcome of the first steps of one queued update application. -/
inductive StepOutcome where
  | dropped
  | proceeded (offset : JsVal)
  | threw (msg : String)
deriving DecidableEq

def StepOutcome.wasDropped : StepOutcome → Bool
  | .dropped => true
  | _ => false

/-- The opening of the queued closure of handleModelUpdates: compute
offset = (await findNodeOffset(ev.root)) - 1, return early (drop the
update) when offset === undefined, otherwise proceed to apply the buffer
mutation at that offset.  When the rewritten anchor is itself the
undefined value, findNodeOffset dereferences anchor.underlying and the
closure rejects with a TypeError. -/
def processUpdate (P : Provider) (root : Node) (anchor : Option NodeView) : StepOutcome :=
  match anchor with
  | none => .threw "TypeError"
  | some v =>
    let offset := jsSubOne (jsOfLookup (findNodeOffset P root v))
    if offset.isUndefined then .dropped
    else .proceeded offset

/-- The reconciler queue: this.eventQueue = this.eventQueue.then(handler),
with no rejection handler.  A then-callback runs only when the upstream
promise is fulfilled; otherwise the rejection propagates to the new
chained promise.  Given the state of the current chain head (true =
fulfilled) and the outcome each queued handler would have if run (true =
fulfills, false = rejects), returns which handlers actually run. -/
def queueRuns : Bool → List Bool → List Bool
  | _, [] => []
  | fulfilled, o :: os =>
    if fulfilled then true :: queueRuns o os
    else false :: queueRuns false os

/-- The this.lineToSignId map of TreeView, as an association list with
unique keys (line number to sign placement id). -/
abbrev SignMap := List (Nat × Nat)

/-- Map.get. -/
def signGet (m : SignMap) (k : Nat) : Option Nat :=
  (m.find? (fun p => p.1 == k)).map (fun p => p.2)

/-- Map.delete. -/
def signDelete (m : SignMap) (k : Nat) : SignMap :=
  m.filter (fun p => p.1 != k)

/-- TreeView.removeRows, restricted to its decoration bookkeeping: for
every i in [fromIdx, toIdx) the sign placed at line i + 1 (rows
[fromIdx, toIdx) occupy lines fromIdx + 1 .. toIdx) is collected for
release via sign_unplace, and the map entry deleted is the one for key i
(the code deletes i where it read i + 1).  Returns the released sign ids
in order together with the map left behind. -/
def removeRowsSigns (fromIdx toIdx : Nat) (m : SignMap) : List Nat × SignMap :=
  (List.range' fromIdx (toIdx - fromIdx)).foldl
    (fun acc i =>
      match signGet acc.2 (i + 1) with
      | some pid => (acc.1 ++ [pid], signDelete acc.2 i)
      | none => acc)
    ([], m)

theorem getChildren_viewNode (P : Provider) (t : Nat) (n : Node) :
    (getChildren P t n).2.viewNode = n.viewNode := by
  cases n with
  | mk v l e c lt d => cases c <;> rfl

theorem getChildren_lastTouch (P : Provider) (t : Nat) (n : Node) :
    (getChildren P t n).2.lastTouch = n.lastTouch := by
  cases n with
  | mk v l e c lt d => cases c <;> rfl

theorem getChildren_defunct (P : Provider) (t : Nat) (n : Node) :
    (getChildren P t n).2.defunct = n.defunct := by
  cases n with
  | mk v l e c lt d => cases c <;> rfl

theorem getChildren_expanded (P : Provider) (t : Nat) (n : Node) :
    (getChildren P t n).2.expanded = n.expanded := by
  cases n with
  | mk v l e c lt d => cases c <;> rfl

theorem touchNode_lastTouch (P : Provider) (t : Nat) (n : Node) :
    (touchNode P t n).lastTouch = t := by
  cases n with
  | mk v l e c lt d => cases e <;> cases c <;> rfl

theorem touchNode_defunct (P : Provider) (t : Nat) (n : Node) :
    (touchNode P t n).defunct = n.defunct := by
  cases n with
  | mk v l e c lt d => cases e <;> cases c <;> rfl

theorem touchNode_expanded (P : Provider) (t : Nat) (n : Node) :
    (touchNode P t n).expanded = n.expanded := by
  cases n with
  | mk v l e c lt d => cases e <;> cases c <;> rfl

theorem touchNode_viewNode (P : Provider) (t : Nat) (n : Node) :
    (touchNode P t n).viewNode = n.viewNode := by
  cases n with
  | mk v l e c lt d => cases e <;> cases c <;> rfl

theorem setExpanded_defunct (n : Node) (b : Bool) :
    (n.setExpanded b).defunct = n.defunct := by
  cases n with
  | mk v l e c lt d => rfl

theorem setExpanded_lastTouch (n : Node) (b : Bool) :
    (n.setExpanded b).lastTouch = n.lastTouch := by
  cases n with
  | mk v l e c lt d => rfl

theorem setExpanded_expanded (n : Node) (b : Bool) :
    (n.setExpanded b).expanded = b := by
  cases n with
  | mk v l e c lt d => rfl

theorem setCache_lastTouch (n : Node) (c : Option (List Node)) :
    (n.setCache c).lastTouch = n.lastTouch := by
  cases n with
  | mk v l e cc lt d => rfl

theorem setCache_defunct (n : Node) (c : Option (List Node)) :
    (n.setCache c).defunct = n.defunct := by
  cases n with
  | mk v l e cc lt d => rfl

theorem setViewNode_lastTouch (n : Node) (v : TreeViewNode) :
    (n.setViewNode v).lastTouch = n.lastTouch := by
  cases n with
  | mk v0 l e cc lt d => rfl

theorem setViewNode_defunct (n : Node) (v : TreeViewNode) :
    (n.setViewNode v).defunct = n.defunct := by
  cases n with
  | mk v0 l e cc lt d => rfl

theorem reloadSubtree_lastTouch (P : Provider) (t : Nat) (n : Node)
    (o : List (List (Option String))) :
    (reloadSubtree P t n o).lastTouch = n.lastTouch := by
  rw [reloadSubtree]
  split
  · rfl
  · rw [setCache_lastTouch, getChildren_lastTouch]

theorem reloadSubtree_defunct (P : Provider) (t : Nat) (n : Node)
    (o : List (List (Option String))) :
    (reloadSubtree P t n o).defunct = n.defunct := by
  rw [reloadSubtree]
  split
  · rfl
  · rw [setCache_defunct, getChildren_defunct]

/-- refreshSubtree never writes the lastTouch stamp of the node it runs
on: nothing in its body calls touch. -/
theorem refreshSubtree_lastTouch (P : Provider) (t : Nat)
    (nvn : Option TreeViewNode) (n : Node) :
    (refreshSubtree P t nvn n).1.lastTouch = n.lastTouch := by
  unfold refreshSubtree
  cases nvn with
  | none =>
    simp only []
    rw [reloadSubtree_lastTouch, setCache_lastTouch]
    split
    · rw [setCache_lastTouch, getChildren_lastTouch]
    · rfl
  | some v =>
    simp only []
    rw [setViewNode_lastTouch, reloadSubtree_lastTouch, setCache_lastTouch]
    split
    · rw [setCache_lastTouch, getChildren_lastTouch]
    · rfl

/-- refreshSubtree never marks the node it runs on defunct: markAsDefunct
is applied only to the children. -/
theorem refreshSubtree_defunct (P : Provider) (t : Nat)
    (nvn : Option TreeViewNode) (n : Node) :
    (refreshSubtree P t nvn n).1.defunct = n.defunct := by
  unfold refreshSubtree
  cases nvn with
  | none =>
    simp only []
    rw [reloadSubtree_defunct, setCache_defunct]
    split
    · rw [setCache_defunct, getChildren_defunct]
    · rfl
  | some v =>
    simp only []
    rw [setViewNode_defunct, reloadSubtree_defunct, setCache_defunct]
    split
    · rw [setCache_defunct, getChildren_defunct]
    · rfl

/-- C7: Node.height is 1 on a collapsed node and 1 plus the sum of the
resolved children's heights on an expanded node; it is a pure function of
the node's current state with no cache of its own, so flipping the
expansion flag is immediately reflected (a node made collapsed has height
1 again). -/
theorem c7_height (P : Provider) (t : Nat) (n : Node) :
    height P n =
      (if n.expanded then 1 + ((effChildren P t n).map (height P)).sum else 1) ∧
    height P (n.setExpanded false) = 1 := by
  constructor
  · by_cases he : n.expanded = true
    · rw [if_pos he]
      exact heightEff P t n he
    · simp at he
      rw [he]
      simp
      cases n with
      | mk v l e c lt d =>
        simp [Node.expanded] at he
        subst he
        rfl
  · cases n with
    | mk v l e c lt d => rfl

def c8vn : TreeViewNode :=
  { viewId := none, nodeUri := some "d", label := "d", icon := none,
    collapseState := some false, command := none }

def c8P : Provider := fun _ => []

/-- A retired node whose children cache is unresolved. -/
def c8n : Node := .mk c8vn 1 false none 0 true

def c8w : World := { node := c8n, events := [], notes := [], clock := 0 }

/-- C8 counterexample: the claim also asserts that a retired node never
resolves a new childrenCache, but Node.getChildren has no defunct guard:
invoked on a retired node with an unresolved cache it loads and memoizes
a new cache. -/
theorem c8_counterexample :
    c8n.defunct = true ∧ c8n.childrenCache = none ∧
    ((getChildren c8P 5 c8n).2.childrenCache).isSome = true :=
  ⟨rfl, rfl, rfl⟩

/-- C8 amended: expand() and collapse() on a retired node return failure
immediately, with no event emission, no state mutation and no data-source
notification (the world is returned unchanged); but getChildren does not
check the retired flag, so a retired node with an unresolved cache does
resolve a new childrenCache when getChildren is invoked. -/
theorem c8_amended (P : Provider) (t : Nat) (w : World) (n : Node)
    (hw : w.node.defunct = true) (hn : n.defunct = true)
    (hc : n.childrenCache = none) :
    expandRun P w = (w, false) ∧ collapseRun P w = (w, false) ∧
    (getChildren P t n).2.childrenCache =
      some ((P n.viewNode.nodeUri).map (fun v => freshNode v (n.level + 1) t)) := by
  refine ⟨?_, ?_, ?_⟩
  · rw [expandRun.eq_def, expandBegin.eq_def]
    rw [if_pos hw]
  · rw [collapseRun.eq_def]
    rw [if_pos hw]
  · cases n with
    | mk v l e c lt d =>
      simp [Node.childrenCache] at hc
      subst hc
      rfl

/-- C8 witness: the amended statement evaluated on a concrete retired
node. -/
theorem c8_witness :
    expandRun c8P c8w = (c8w, false) ∧ collapseRun c8P c8w = (c8w, false) ∧
    (getChildren c8P 5 c8n).2.childrenCache = some [] := by
  have h := c8_amended c8P 5 c8w c8n rfl rfl rfl
  simpa [c8P] using h

def c4vn : TreeViewNode :=
  { viewId := none, nodeUri := some "a", label := "a", icon := none,
    collapseState := some false, command := none }

def c4P : Provider := fun _ => []

def c4w0 : World :=
  { node := .mk c4vn 1 false (some []) 0 false, events := [], notes := [], clock := 0 }

/-- C4 counterexample: after a first successful expand() the node is
expanded and not retired, yet a second sequential expand() call emits
another structural update (two events in total) and reports success -
Node.expand has no already-expanded guard, so the second call is not a
no-op. -/
theorem c4_counterexample :
    (expandRun c4P c4w0).1.node.expanded = true ∧
    (expandRun c4P c4w0).1.node.defunct = false ∧
    (expandRun c4P c4w0).1.events.length = 1 ∧
    (expandRun c4P (expandRun c4P c4w0).1).2 = true ∧
    (expandRun c4P (expandRun c4P c4w0).1).1.events.length = 2 :=
  ⟨rfl, rfl, rfl, rfl, rfl⟩

/-- C4 amended: a second sequential expand() on an already-expanded
non-retired node is not suppressed: every uninterleaved expand() on a
non-retired node notifies the data source, emits exactly one more
structural update and returns success, so the second call duplicates the
event; only on retired nodes is expand() a no-op. -/
theorem c4_amended (P : Provider) (w : World) (hw : w.node.defunct = false) :
    (expandRun P w).2 = true ∧
    (expandRun P w).1.events.length = w.events.length + 1 := by
  rw [expandRun.eq_def, expandBegin.eq_def, if_neg (by simp [hw])]
  simp only []
  rw [expandFinish.eq_def]
  simp only []
  have hlt : ((getChildren P (w.clock + 1)
      (touchNode P (w.clock + 1) (w.node.setExpanded true))).2).lastTouch
      = w.clock + 1 := by
    rw [getChildren_lastTouch, touchNode_lastTouch]
  have hdf : ((getChildren P (w.clock + 1)
      (touchNode P (w.clock + 1) (w.node.setExpanded true))).2).defunct = false := by
    rw [getChildren_defunct, touchNode_defunct, setExpanded_defunct, hw]
  rw [hlt, hdf]
  simp

/-- C4 witness: the amended statement evaluated on a concrete world. -/
theorem c4_witness :
    (expandRun c4P c4w0).2 = true ∧
    (expandRun c4P c4w0).1.events.length = 1 := by
  have h := c4_amended c4P c4w0 rfl
  simpa using h

/-- C3: evaluation of the queue chaining at the failing input, plus the
general collapse: queueRuns true [false, true] shows that when the first
queued update rejects the second never runs, and once the chain head is
rejected no later handler ever runs (the rejection propagates through
every then with no rejection handler). -/
theorem c3_queue_stalls :
    queueRuns true [false, true] = [true, false] ∧
    ∀ os : List Bool, queueRuns false os = os.map (fun _ => false) := by
  constructor
  · rfl
  · intro os
    induction os with
    | nil => rfl
    | cons o os ih => simp [queueRuns, ih]

/-- C9: evaluation of the decoration bookkeeping of removeRows at the
failing input.  Removing the single row at line 2 (removeRows(1, 2)) with
signs 9 at line 1 and 7 at line 2 releases exactly sign 7 (the one in the
removed range), but deletes map key 1 instead of key 2: the released
handle 7 stays associated with line 2 - after the deletion that line
denotes a surviving row - while the live sign 9 of the untouched line 1
is forgotten.  The second equation shows the leak in isolation. -/
theorem c9_sign_leak :
    removeRowsSigns 1 2 [(1, 9), (2, 7)] = ([7], [(2, 7)]) ∧
    removeRowsSigns 0 1 [(1, 7)] = ([7], [(1, 7)]) :=
  ⟨rfl, rfl⟩

def c2rootVN : TreeViewNode :=
  { viewId := some "v", nodeUri := none, label := "v", icon := none,
    collapseState := none, command := none }

def c2P : Provider := fun _ => []

def c2root : Node := .mk c2rootVN 0 true (some []) 0 false

def c2staleVN : TreeViewNode :=
  { viewId := none, nodeUri := some "gone", label := "gone", icon := none,
    collapseState := none, command := none }

/-- An anchor row whose identity is no longer in the visible projection. -/
def c2stale : NodeView :=
  { underlying := c2staleVN, level := 1, expandable := false, expanded := false }

/-- C2: the drop-the-update guard of handleModelUpdates is dead code.  The
code computes offset = (await findNodeOffset(ev.root)) - 1 before testing
offset === undefined; when findNodeOffset resolves to undefined the
subtraction yields NaN, the strict-equality test is false, and the update
proceeds with a NaN offset instead of being dropped - for no anchor value
is the update ever dropped.  The second conjunct evaluates this at a
concrete stale anchor. -/
theorem c2_dead_guard :
    (∀ (P : Provider) (root : Node) (v : NodeView),
      (processUpdate P root (some v)).wasDropped = false) ∧
    processUpdate c2P c2root (some c2stale) = .proceeded .nan := by
  constructor
  · intro P root v
    rw [processUpdate.eq_def]
    simp only []
    cases findNodeOffset P root v <;>
      simp [jsOfLookup, jsSubOne, JsVal.isUndefined, StepOutcome.wasDropped]
  · rfl

/-- C10: the hidden-root rewrite in handleModelUpdates.  An update
anchored at the root sentinel is rewritten to anchor payload[1], length
length - 1 and payload payload.slice(1); when the original payload has
fewer than two rows the rewritten anchor is the undefined value, and the
queued closure still runs the offset lookup against it - findNodeOffset
dereferences the undefined anchor, rejecting the closure with a
TypeError, rather than the update being rejected or filtered up front. -/
theorem c10_root_rewrite (ev0 : TreeModelUpdate) (P : Provider) (tree : Node)
    (hroot : ev0.root.underlying.nodeUri = none) :
    rewriteUpdate ev0 =
      { root := ev0.payload.get? 1, length := (ev0.length : Int) - 1,
        payload := ev0.payload.drop 1, focusEvent := ev0.focusEvent } ∧
    (ev0.payload.length < 2 →
      (rewriteUpdate ev0).root = none ∧
      processUpdate P tree (rewriteUpdate ev0).root = .threw "TypeError" ∧
      (processUpdate P tree (rewriteUpdate ev0).root).wasDropped = false) := by
  have hrw : rewriteUpdate ev0 =
      { root := ev0.payload.get? 1, length := (ev0.length : Int) - 1,
        payload := ev0.payload.drop 1, focusEvent := ev0.focusEvent } := by
    rw [rewriteUpdate.eq_def, if_pos (by simp [hroot])]
  refine ⟨hrw, fun hlen => ?_⟩
  have hnone : (rewriteUpdate ev0).root = none := by
    rw [hrw]
    simp only []
    exact List.get?_eq_none.mpr (by omega)
  rw [hnone]
  exact ⟨rfl, rfl, rfl⟩

def c10vn : TreeViewNode :=
  { viewId := some "w", nodeUri := none, label := "w", icon := none,
    collapseState := none, command := none }

def c10tree : Node := .mk c10vn 0 true (some []) 0 false

/-- The navigation update revealDocument fires for the root: length 1,
empty payload, focusEvent true. -/
def c10ev : TreeModelUpdate :=
  { root := makeView c10tree, length := 1, payload := [], focusEvent := true }

/-- C10 witness: the rewrite of a concrete root-anchored navigation update
has the undefined anchor, and processing it reaches the throwing lookup. -/
theorem c10_witness :
    rewriteUpdate c10ev =
      { root := none, length := 0, payload := [], focusEvent := true } ∧
    processUpdate c2P c10tree (rewriteUpdate c10ev).root = .threw "TypeError" := by
  have h := c10_root_rewrite c10ev c2P c10tree rfl
  refine ⟨?_, (h.2 (by simp [c10ev])).2.1⟩
  have h1 := h.1
  simpa [c10ev] using h1

/-- The structural update an expand() emits when its final staleness check
passes. -/
def expandEvent (P : Provider) (w : World) : TreeModelUpdate :=
  { root := makeView (getChildren P w.clock w.node).2, length := 1,
    payload := collectVisibleNodes P (getChildren P w.clock w.node).2,
    focusEvent := false }

/-- C1 amended: a refreshSubtree completed on the same node is invisible
to that node's own suspended expand(): refreshSubtree never writes the
node's generation stamp (nothing in it calls touch on the node) and never
retires the node (markAsDefunct is applied only to the children), and the
resumed expand() emits exactly when its recorded stamp still equals the
node's lastTouch and the node is not retired.  So a same-node refresh
does not suppress the expand, which emits its update after the refresh;
suppression happens precisely when the node was retired meanwhile (for
example by a refreshSubtree on the parent, which retires all children) or
its stamp advanced (by another expand/collapse touching it). -/
theorem c1_amended (P : Provider) (nvn : Option TreeViewNode) (w : World) (c : Nat) :
    (refreshStep P nvn w).node.lastTouch = w.node.lastTouch ∧
    (refreshStep P nvn w).node.defunct = w.node.defunct ∧
    (expandFinish P w c).2 = (c == w.node.lastTouch && !w.node.defunct) ∧
    (expandFinish P w c).1.events =
      (if c == w.node.lastTouch && !w.node.defunct
       then w.events ++ [expandEvent P w] else w.events) := by
  refine ⟨?_, ?_, ?_, ?_⟩
  · rw [refreshStep.eq_def]
    simp only []
    exact refreshSubtree_lastTouch P w.clock nvn w.node
  · rw [refreshStep.eq_def]
    simp only []
    exact refreshSubtree_defunct P w.clock nvn w.node
  · rw [expandFinish.eq_def]
    simp only [getChildren_lastTouch, getChildren_defunct]
    split <;> rename_i hcond <;> simp_all
  · rw [expandFinish.eq_def]
    simp only [getChildren_lastTouch, getChildren_defunct]
    split <;> rename_i hcond
    · rfl
    · rfl

def c1vn : TreeViewNode :=
  { viewId := none, nodeUri := some "n", label := "n", icon := none,
    collapseState := some false, command := none }

def c1P : Provider := fun _ => []

/-- An expanded node with a resolved (empty) children cache, about to be
expanded again while a refresh interleaves. -/
def c1w0 : World :=
  { node := .mk c1vn 1 true (some []) 0 false, events := [], notes := [], clock := 0 }

/-- C1 counterexample: the schedule in which expand() runs up to its
suspension at the child-resolution await (recording stamp 1), a
refreshSubtree on the same node then runs to completion (emitting its own
update, the first event), and the expand() resumes: its staleness check
still passes, so it emits a second structural update and returns true -
not the suppressed failure the claim requires. -/
theorem c1_counterexample :
    (expandBegin c1P c1w0).2 = some 1 ∧
    (refreshStep c1P none (expandBegin c1P c1w0).1).events.length = 1 ∧
    (expandFinish c1P (refreshStep c1P none (expandBegin c1P c1w0).1) 1).2 = true ∧
    (expandFinish c1P (refreshStep c1P none (expandBegin c1P c1w0).1) 1).1.events.length = 2 := by
  refine ⟨rfl, ?_, ?_, ?_⟩ <;>
    simp [c1P, c1w0, c1vn, expandBegin, expandFinish, refreshStep, refreshSubtree,
      touchNode, getChildren, findOpenNodes, findOpenNodesL, markAsDefunctL,
      collectVisibleNodes, makeView, height, heightL, Node.setExpanded, Node.setCache,
      Node.defunct, Node.lastTouch, Node.expanded, Node.viewNode, Node.level,
      Node.childrenCache, Node.expandable, freshNode, reloadSubtree]

theorem heightL_fresh (P : Provider) (xs : List TreeViewNode) (lvl t : Nat) :
    heightL P (xs.map (fun v => freshNode v lvl t)) = xs.length := by
  induction xs with
  | nil => rfl
  | cons x xs ih =>
    simp [heightL, ih, height_fresh]
    omega

theorem height_setExpanded_false (P : Provider) (n : Node) :
    height P (n.setExpanded false) = 1 := by
  cases n with
  | mk v l e c lt d => rfl

theorem collectL_length_of (P : Provider) (cs : List Node)
    (ih : ∀ c ∈ cs, (collectVisibleNodes P c).length = height P c) :
    (collectVisibleNodesL P cs).length = heightL P cs := by
  induction cs with
  | nil => rfl
  | cons c cs ihl =>
    have h1 := ih c (List.mem_cons_self c cs)
    have h2 := ihl (fun x hx => ih x (List.mem_cons_of_mem c hx))
    simp [collectVisibleNodesL, heightL, h1, h2]

/-- The number of visible rows collectVisibleNodes produces for a node is
exactly the node's height. -/
theorem collect_length (P : Provider) : ∀ n : Node,
    (collectVisibleNodes P n).length = height P n := by
  apply Node.cacheInduction
  intro n ih
  cases n with
  | mk vn lvl e c lt d =>
    cases e with
    | false => cases c <;> rfl
    | true =>
      cases c with
      | none =>
        simp [collectVisibleNodes, height]
        omega
      | some cs =>
        have := collectL_length_of P cs (ih cs rfl)
        simp [collectVisibleNodes, height, this]
        omega

theorem heightL_touchL_of (P : Provider) (t : Nat) (cs : List Node)
    (ih : ∀ c ∈ cs, height P (touchNode P t c) = height P c) :
    heightL P (touchNodeL P t cs) = heightL P cs := by
  induction cs with
  | nil => rfl
  | cons c cs ihl =>
    have h1 := ih c (List.mem_cons_self c cs)
    have h2 := ihl (fun x hx => ih x (List.mem_cons_of_mem c hx))
    simp [touchNodeL, heightL, h1, h2]

/-- Touching a subtree does not change its height: touch only writes
stamps and resolves caches into fresh (collapsed) children. -/
theorem height_touch (P : Provider) (t : Nat) : ∀ n : Node,
    height P (touchNode P t n) = height P n := by
  apply Node.cacheInduction
  intro n ih
  cases n with
  | mk vn lvl e c lt d =>
    cases e with
    | false => cases c <;> rfl
    | true =>
      cases c with
      | none => simp [touchNode, height, heightL_fresh]
      | some cs =>
        have := heightL_touchL_of P t cs (ih cs rfl)
        simp [touchNode, height, this]

/-- C6 amended: collapse() computes the subtree height before flipping
expanded to false and, on success, emits a structural update whose
replacedRowCount is that pre-collapse height and whose newRows is the
single row of the now-collapsed node, so rows deleted minus rows inserted
equals the drop in subtree height; the same balance holds for an expand()
called on a node that was not already expanded (it replaces the node's
single row, its pre-expand height, by the full new visible subtree, whose
row count is the post-expand height).  An expand() on an already-expanded
node still replaces only 1 row while inserting the full subtree, which
breaks the balance (see the counterexample). -/
theorem c6_amended (P : Provider) (w : World) (hd : w.node.defunct = false) :
    ((collapseRun P w).2 = true ∧
     ∃ e, (collapseRun P w).1.events = w.events ++ [e] ∧
       e.length = height P w.node ∧
       e.payload = [makeView ((collapseRun P w).1.node)] ∧
       height P ((collapseRun P w).1.node) = 1 ∧
       (e.length : Int) - e.payload.length =
         (height P w.node : Int) - height P ((collapseRun P w).1.node)) ∧
    (w.node.expanded = false →
      (expandRun P w).2 = true ∧ height P w.node = 1 ∧
      ∃ e, (expandRun P w).1.events = w.events ++ [e] ∧
        e.length = 1 ∧
        e.payload.length = height P ((expandRun P w).1.node) ∧
        (e.length : Int) - e.payload.length =
          (height P w.node : Int) - height P ((expandRun P w).1.node)) := by
  constructor
  · have hrun : (collapseRun P w).2 = true ∧
        (collapseRun P w).1 =
          { node := (touchNode P (w.clock + 1) w.node).setExpanded false,
            events := w.events ++
              [{ root := makeView ((touchNode P (w.clock + 1) w.node).setExpanded false),
                 length := height P (touchNode P (w.clock + 1) w.node),
                 payload := [makeView ((touchNode P (w.clock + 1) w.node).setExpanded false)],
                 focusEvent := false }],
            notes := w.notes ++ [(w.node.viewNode.nodeUri, true)],
            clock := w.clock + 1 } := by
      rw [collapseRun.eq_def, if_neg (by simp [hd])]
      simp only []
      rw [if_pos (by rw [setExpanded_lastTouch, touchNode_lastTouch,
            setExpanded_defunct, touchNode_defunct, hd]; simp)]
      exact ⟨rfl, rfl⟩
    obtain ⟨hres, hst⟩ := hrun
    refine ⟨hres,
      ⟨{ root := makeView ((touchNode P (w.clock + 1) w.node).setExpanded false),
         length := height P (touchNode P (w.clock + 1) w.node),
         payload := [makeView ((touchNode P (w.clock + 1) w.node).setExpanded false)],
         focusEvent := false }, ?_, ?_, ?_, ?_, ?_⟩⟩
    · rw [hst]
    · exact height_touch P (w.clock + 1) w.node
    · rw [hst]
    · rw [hst]
      exact height_setExpanded_false P (touchNode P (w.clock + 1) w.node)
    · rw [hst]
      simp [height_touch, height_setExpanded_false]
  · intro hexp
    have hrun : (expandRun P w).2 = true ∧
        (expandRun P w).1 =
          { node := (getChildren P (w.clock + 1)
              (touchNode P (w.clock + 1) (w.node.setExpanded true))).2,
            events := w.events ++
              [{ root := makeView ((getChildren P (w.clock + 1)
                    (touchNode P (w.clock + 1) (w.node.setExpanded true))).2),
                 length := 1,
                 payload := collectVisibleNodes P ((getChildren P (w.clock + 1)
                    (touchNode P (w.clock + 1) (w.node.setExpanded true))).2),
                 focusEvent := false }],
            notes := w.notes ++ [(w.node.viewNode.nodeUri, false)],
            clock := w.clock + 1 } := by
      rw [expandRun.eq_def, expandBegin.eq_def, if_neg (by simp [hd])]
      simp only []
      rw [expandFinish.eq_def]
      simp only []
      rw [if_pos (by rw [getChildren_lastTouch, touchNode_lastTouch,
            getChildren_defunct, touchNode_defunct, setExpanded_defunct, hd]; simp)]
      exact ⟨rfl, rfl⟩
    have hh1 : height P w.node = 1 := by
      cases hw : w.node with
      | mk v l e c lt d =>
        rw [hw] at hexp
        simp [Node.expanded] at hexp
        subst hexp
        cases c <;> rfl
    obtain ⟨hres, hst⟩ := hrun
    refine ⟨hres, hh1,
      ⟨{ root := makeView ((getChildren P (w.clock + 1)
            (touchNode P (w.clock + 1) (w.node.setExpanded true))).2),
         length := 1,
         payload := collectVisibleNodes P ((getChildren P (w.clock + 1)
            (touchNode P (w.clock + 1) (w.node.setExpanded true))).2),
         focusEvent := false }, ?_, rfl, ?_, ?_⟩⟩
    · rw [hst]
    · rw [hst]
      simp only []
      rw [collect_length]
    · rw [hst]
      simp only []
      rw [collect_length, hh1]

def c6vnX : TreeViewNode :=
  { viewId := none, nodeUri := some "x", label := "x", icon := none,
    collapseState := some false, command := none }

def c6vnY : TreeViewNode :=
  { viewId := none, nodeUri := some "y", label := "y", icon := none,
    collapseState := none, command := none }

def c6P : Provider := fun _ => []

/-- An already-expanded node with one resolved, collapsed child. -/
def c6w0 : World :=
  { node := .mk c6vnX 1 true (some [.mk c6vnY 2 false (some []) 0 false]) 0 false,
    events := [], notes := [], clock := 0 }

/-- C6 counterexample: an expand() on an already-expanded node of height 2
emits an update deleting 1 row and inserting 2 rows while the subtree
height does not change (2 before, 2 after): deleted minus inserted is -1
but the height difference is 0, so the claimed balance fails for this
expand call. -/
theorem c6_counterexample :
    height c6P c6w0.node = 2 ∧
    (expandRun c6P c6w0).2 = true ∧
    (expandRun c6P c6w0).1.events.map (fun e => (e.length, e.payload.length)) = [(1, 2)] ∧
    height c6P (expandRun c6P c6w0).1.node = 2 ∧
    ((1 : Int) - 2 ≠ (2 : Int) - 2) :=
  ⟨rfl, rfl, rfl, rfl, by decide⟩

/-- A collapsed node with one resolved child, for evaluating the amended
statement. -/
def c6wc : World :=
  { node := .mk c6vnX 1 false (some [.mk c6vnY 2 false (some []) 0 false]) 0 false,
    events := [], notes := [], clock := 0 }

/-- C6 witness: the amended statement evaluated on a concrete collapsed
node. -/
theorem c6_witness :
    (collapseRun c6P c6wc).2 = true ∧ (expandRun c6P c6wc).2 = true ∧
    height c6P c6wc.node = 1 := by
  have h := c6_amended c6P c6wc rfl
  exact ⟨h.1.1, (h.2 rfl).1, (h.2 rfl).2.1⟩

theorem visList_get_zero (P : Provider) (n : Node) :
    (visList P n).get? 0 = some n := by
  cases n with
  | mk vn lvl e c lt d => cases e <;> cases c <;> rfl

theorem visListL_length_of (P : Provider) (cs : List Node)
    (ih : ∀ c ∈ cs, (visList P c).length = height P c) :
    (visListL P cs).length = heightL P cs := by
  induction cs with
  | nil => rfl
  | cons c cs ihl =>
    have h1 := ih c (List.mem_cons_self c cs)
    have h2 := ihl (fun x hx => ih x (List.mem_cons_of_mem c hx))
    simp [visListL, heightL, h1, h2]

/-- The visible projection has exactly height many rows. -/
theorem visList_length (P : Provider) : ∀ n : Node,
    (visList P n).length = height P n := by
  apply Node.cacheInduction
  intro n ih
  cases n with
  | mk vn lvl e c lt d =>
    cases e with
    | false => cases c <;> rfl
    | true =>
      cases c with
      | none =>
        simp [visList, height]
        omega
      | some cs =>
        have := visListL_length_of P cs (ih cs rfl)
        simp [visList, height, this]
        omega

theorem collectL_eq_of (P : Provider) (cs : List Node)
    (ih : ∀ c ∈ cs, collectVisibleNodes P c = (visList P c).map makeView) :
    collectVisibleNodesL P cs = (visListL P cs).map makeView := by
  induction cs with
  | nil => rfl
  | cons c cs ihl =>
    have h1 := ih c (List.mem_cons_self c cs)
    have h2 := ihl (fun x hx => ih x (List.mem_cons_of_mem c hx))
    simp [collectVisibleNodesL, visListL, h1, h2]

/-- collectVisibleNodes is the view image of the visible projection. -/
theorem collect_eq_map (P : Provider) : ∀ n : Node,
    collectVisibleNodes P n = (visList P n).map makeView := by
  apply Node.cacheInduction
  intro n ih
  cases n with
  | mk vn lvl e c lt d =>
    cases e with
    | false => cases c <;> rfl
    | true =>
      cases c with
      | none => simp [collectVisibleNodes, visList, List.map_map]
      | some cs =>
        have := collectL_eq_of P cs (ih cs rfl)
        simp [collectVisibleNodes, visList, this]

/-- Specification device: the accumulator step findNodeOffsetInternal
performs on one visited node of the visible projection. -/
def fnoStep (target : Option String) (acc : Nat × Bool) (m : Node) : Nat × Bool :=
  if m.viewNode.nodeUri == target || acc.2 then (acc.1, true) else (acc.1 + 1, acc.2)

theorem foldl_fnoStep_found (target : Option String) (l : List Node) (k : Nat) :
    l.foldl (fnoStep target) (k, true) = (k, true) := by
  induction l generalizing k with
  | nil => rfl
  | cons m l ih => simp [fnoStep, ih]

theorem fnoiL_eq_of (P : Provider) (target : Option String) (cs : List Node)
    (ih : ∀ c ∈ cs, ∀ acc, findNodeOffsetInternal P target acc c =
      (visList P c).foldl (fnoStep target) acc) :
    ∀ acc, findNodeOffsetInternalL P target acc cs =
      (visListL P cs).foldl (fnoStep target) acc := by
  induction cs with
  | nil => intro acc; rfl
  | cons c cs ihl =>
    intro acc
    have h1 := ih c (List.mem_cons_self c cs) acc
    have h2 := ihl (fun x hx => ih x (List.mem_cons_of_mem c hx))
    simp [findNodeOffsetInternalL, visListL, List.foldl_append, h1, h2]

/-- findNodeOffsetInternal is exactly the fold of its one-node step over
the visible projection: it visits precisely the currently visible nodes,
in pre-order. -/
theorem fnoi_eq_foldl (P : Provider) (target : Option String) : ∀ n : Node,
    ∀ acc, findNodeOffsetInternal P target acc n =
      (visList P n).foldl (fnoStep target) acc := by
  apply Node.cacheInduction
  intro n ih acc
  cases n with
  | mk vn lvl e c lt d =>
    have hstep : ∀ z : Nat × Bool, fnoStep target z (Node.mk vn lvl e c lt d) =
        (if vn.nodeUri == target || z.2 then (z.1, true) else (z.1 + 1, z.2)) := by
      intro z
      simp [fnoStep, Node.viewNode]
    have hfresh : ∀ (z : Nat × Bool) (v : TreeViewNode) (l t0 : Nat),
        fnoStep target z (freshNode v l t0) =
        (if v.nodeUri == target || z.2 then (z.1, true) else (z.1 + 1, z.2)) := by
      intro z v l t0
      simp [fnoStep, freshNode, Node.viewNode]
    cases e with
    | false =>
      cases c <;>
        simp [findNodeOffsetInternal, visList, fnoStep, Node.viewNode]
    | true =>
      cases c with
      | none =>
        by_cases hm : (vn.nodeUri == target || acc.2) = true
        · rw [findNodeOffsetInternal.eq_def]
          simp only []
          rw [if_pos hm]
          simp only [visList, List.foldl_cons]
          rw [hstep, if_pos hm, foldl_fnoStep_found]
        · rw [findNodeOffsetInternal.eq_def]
          simp only []
          rw [if_neg hm]
          simp only [visList, List.foldl_cons]
          rw [hstep, if_neg hm]
          have hfun : (fun (z : Nat × Bool) (v : TreeViewNode) =>
              if v.nodeUri == target || z.2 then (z.1, true) else (z.1 + 1, z.2)) =
              (fun z v => fnoStep target z (freshNode v (lvl + 1) 0)) := by
            funext z v
            rw [hfresh]
          rw [List.foldl_map, ← hfun]
          simp
      | some cs =>
        by_cases hm : (vn.nodeUri == target || acc.2) = true
        · rw [findNodeOffsetInternal.eq_def]
          simp only []
          rw [if_pos hm]
          simp only [visList, List.foldl_cons]
          rw [hstep, if_pos hm, foldl_fnoStep_found]
        · rw [findNodeOffsetInternal.eq_def]
          simp only []
          rw [if_neg hm]
          simp only [visList, List.foldl_cons]
          rw [hstep, if_neg hm]
          exact fnoiL_eq_of P target cs (ih cs rfl) (acc.1 + 1, acc.2)

/-- Specification device: the index of the first node of a list whose
identity equals the target identity. -/
def firstMatchIdx (target : Option String) : List Node → Option Nat
  | [] => none
  | m :: l =>
    if m.viewNode.nodeUri == target then some 0
    else (firstMatchIdx target l).map (fun i => i + 1)

theorem foldl_fnoStep_char (target : Option String) : ∀ (l : List Node) (k : Nat),
    l.foldl (fnoStep target) (k, false) =
      (match firstMatchIdx target l with
       | some i => (k + i, true)
       | none => (k + l.length, false)) := by
  intro l
  induction l with
  | nil => intro k; simp [firstMatchIdx]
  | cons m l ih =>
    intro k
    by_cases hm : (m.viewNode.nodeUri == target) = true
    · simp only [List.foldl_cons, fnoStep, hm]
      simp only [Bool.true_or, if_pos]
      rw [foldl_fnoStep_found]
      simp [firstMatchIdx, hm]
    · simp only [List.foldl_cons, fnoStep, hm]
      simp only [Bool.false_or]
      rw [if_neg (by simp)]
      rw [ih (k + 1)]
      simp only [firstMatchIdx, hm]
      cases hfi : firstMatchIdx target l with
      | none => simp [List.length_cons]; omega
      | some i => simp; omega

theorem firstMatchIdx_none (target : Option String) : ∀ l : List Node,
    (∀ m ∈ l, ¬ m.viewNode.nodeUri = target) → firstMatchIdx target l = none := by
  intro l
  induction l with
  | nil => intro h; rfl
  | cons m l ih =>
    intro h
    have hm : ¬ m.viewNode.nodeUri = target := h m (List.mem_cons_self m l)
    simp only [firstMatchIdx]
    rw [ih (fun x hx => h x (List.mem_cons_of_mem m hx))]
    rw [if_neg (by simpa using hm)]
    rfl

theorem firstMatchIdx_isSome (target : Option String) : ∀ (l : List Node) (m : Node),
    m ∈ l → m.viewNode.nodeUri = target → (firstMatchIdx target l).isSome = true := by
  intro l
  induction l with
  | nil => intro m hm; cases hm
  | cons x l ih =>
    intro m hm ht
    by_cases hx : (x.viewNode.nodeUri == target) = true
    · simp [firstMatchIdx, hx]
    · rcases List.mem_cons.mp hm with h1 | h2
      · subst h1
        simp [ht] at hx
      · simp only [firstMatchIdx, if_neg hx]
        have := ih m h2 ht
        cases hfi : firstMatchIdx target l with
        | none => rw [hfi] at this; simp at this
        | some i => simp

theorem firstMatchIdx_spec (target : Option String) : ∀ (l : List Node) (i : Nat),
    firstMatchIdx target l = some i →
    i < l.length ∧ ∃ m, l.get? i = some m ∧ m.viewNode.nodeUri = target := by
  intro l
  induction l with
  | nil => intro i h; cases h
  | cons x l ih =>
    intro i h
    by_cases hx : (x.viewNode.nodeUri == target) = true
    · simp only [firstMatchIdx, if_pos hx] at h
      cases h
      refine ⟨by simp, ⟨x, rfl, by simpa using hx⟩⟩
    · simp only [firstMatchIdx, if_neg hx] at h
      cases hfi : firstMatchIdx target l with
      | none => rw [hfi] at h; cases h
      | some j =>
        rw [hfi] at h
        simp at h
        subst h
        obtain ⟨hlen, m, hget, hm⟩ := ih j hfi
        refine ⟨by simp; omega, ⟨m, ?_, hm⟩⟩
        simpa using hget

/-- TreeModel.findNodeOffset returns exactly the index of the first
visible node carrying the target identity, and undefined when no visible
node carries it. -/
theorem findNodeOffset_char (P : Provider) (root : Node) (v : NodeView) :
    findNodeOffset P root v =
      firstMatchIdx v.underlying.nodeUri (visList P root) := by
  rw [findNodeOffset.eq_def]
  simp only []
  rw [fnoi_eq_foldl P v.underlying.nodeUri root (0, false)]
  rw [foldl_fnoStep_char]
  cases hfi : firstMatchIdx v.underlying.nodeUri (visList P root) with
  | none => simp
  | some i => simp

theorem fwoi_zero (P : Provider) (n : Node) :
    findNodeWithOffsetInternal P n 0 = some n := by
  cases n with
  | mk vn lvl e c lt d => cases c <;> rfl

theorem fwoFold_some (P : Provider) (k : Nat) : ∀ (cs : List Node) (st : Nat × Option Node),
    st.2.isSome = true → findNodeWithOffsetFold P k st cs = st := by
  intro cs
  induction cs with
  | nil => intro st h; rfl
  | cons c cs ih =>
    intro st h
    rw [findNodeWithOffsetFold.eq_def]
    simp only [h, if_true]
    exact ih st h

theorem fwoFold_get (P : Provider) (k : Nat) : ∀ (cs : List Node) (h : Nat),
    (∀ c ∈ cs, ∀ j, j < height P c →
      findNodeWithOffsetInternal P c j = (visList P c).get? j) →
    h ≤ k →
    (findNodeWithOffsetFold P k (h, none) cs).2 = (visListL P cs).get? (k - h) := by
  intro cs
  induction cs with
  | nil => intro h ih hk; simp [findNodeWithOffsetFold, visListL]
  | cons c cs ihl =>
    intro h ih hk
    have hlen : (visList P c).length = height P c := visList_length P c
    rw [findNodeWithOffsetFold.eq_def]
    simp only []
    rw [if_neg (by simp)]
    by_cases hskip : h + height P c ≤ k
    · rw [if_pos hskip]
      have hrw := ihl (h + height P c)
        (fun x hx => ih x (List.mem_cons_of_mem c hx)) hskip
      rw [hrw]
      rw [show visListL P (c :: cs) = visList P c ++ visListL P cs from rfl]
      rw [List.get?_append_right (by omega)]
      rw [hlen]
      congr 1
      omega
    · rw [if_neg hskip]
      have hjlt : k - h < height P c := by omega
      have hrec := ih c (List.mem_cons_self c cs) (k - h) hjlt
      have hsome : ∃ m, (visList P c).get? (k - h) = some m := by
        cases hg : (visList P c).get? (k - h) with
        | none =>
          have := List.get?_eq_none.mp hg
          omega
        | some m => exact ⟨m, rfl⟩
      obtain ⟨m, hm⟩ := hsome
      rw [hrec, hm]
      rw [fwoFold_some P k cs (0, some m) rfl]
      rw [visListL.eq_def]
      rw [List.get?_append (by omega)]
      exact hm.symm

/-- Within range, findNodeWithOffsetInternal returns exactly the node of
the visible projection at the requested offset. -/
theorem fwoi_get (P : Provider) : ∀ n : Node, ∀ k, k < height P n →
    findNodeWithOffsetInternal P n k = (visList P n).get? k := by
  apply Node.cacheInduction
  intro n ih k hk
  by_cases hk0 : k = 0
  · subst hk0
    rw [fwoi_zero, visList_get_zero]
  · cases n with
    | mk vn lvl e c lt d =>
      cases e with
      | false =>
        exfalso
        have : height P (Node.mk vn lvl false c lt d) = 1 := by cases c <;> rfl
        omega
      | true =>
        cases c with
        | none =>
          rw [findNodeWithOffsetInternal.eq_def]
          simp only []
          rw [if_neg hk0]
          rw [visList.eq_def]
          simp only []
          obtain ⟨j, hj⟩ : ∃ j, k = j + 1 := ⟨k - 1, by omega⟩
          subst hj
          simp
        | some cs =>
          rw [findNodeWithOffsetInternal.eq_def]
          simp only []
          rw [if_neg hk0]
          rw [visList.eq_def]
          simp only []
          obtain ⟨j, hj⟩ : ∃ j, k = j + 1 := ⟨k - 1, by omega⟩
          subst hj
          rw [List.get?_cons_succ]
          have := fwoFold_get P (j + 1) cs 1 (ih cs rfl) (by omega)
          simpa using this

theorem fwoFold_none (P : Provider) (k : Nat) : ∀ (cs : List Node) (h : Nat),
    h + heightL P cs ≤ k →
    (findNodeWithOffsetFold P k (h, none) cs).2 = none := by
  intro cs
  induction cs with
  | nil => intro h hk; rfl
  | cons c cs ihl =>
    intro h hk
    rw [heightL.eq_def] at hk
    simp only [] at hk
    rw [findNodeWithOffsetFold.eq_def]
    simp only []
    rw [if_neg (by simp)]
    rw [if_pos (by omega)]
    exact ihl (h + height P c) (by omega)

/-- Past the total height, the lookup returns undefined - provided the
node it starts from is expanded (a collapsed starting node is handled by
the out-of-range index into its fresh children only when the cache is
unresolved; with a resolved cache the fold descends into hidden children,
the counterexample of claim C5). -/
theorem fwoi_ge_height (P : Provider) (n : Node) (k : Nat)
    (he : n.expanded = true) (hk : height P n ≤ k) :
    findNodeWithOffsetInternal P n k = none := by
  cases n with
  | mk vn lvl e c lt d =>
    simp [Node.expanded] at he
    subst he
    have hk0 : k ≠ 0 := by
      have : 1 ≤ height P (Node.mk vn lvl true c lt d) := by
        cases c <;> simp [height]
      omega
    cases c with
    | none =>
      rw [findNodeWithOffsetInternal.eq_def]
      simp only []
      rw [if_neg hk0]
      apply List.get?_eq_none.mpr
      rw [height.eq_def] at hk
      simp only [] at hk
      simp
      omega
    | some cs =>
      rw [findNodeWithOffsetInternal.eq_def]
      simp only []
      rw [if_neg hk0]
      apply fwoFold_none
      rw [height.eq_def] at hk
      simp only [] at hk
      omega

def c5P : Provider := fun _ => []

def c5vnR : TreeViewNode :=
  { viewId := some "v", nodeUri := none, label := "v", icon := none,
    collapseState := none, command := none }

def c5vnA : TreeViewNode :=
  { viewId := none, nodeUri := some "a", label := "a", icon := none,
    collapseState := none, command := none }

def c5vnB : TreeViewNode :=
  { viewId := none, nodeUri := some "b", label := "b", icon := none,
    collapseState := none, command := none }

def c5nodeA : Node := .mk c5vnA 1 false (some []) 0 false

def c5nodeB : Node := .mk c5vnB 1 false (some []) 0 false

/-- A collapsed root that still holds a resolved children cache. -/
def c5badRoot : Node := .mk c5vnR 0 false (some [c5nodeA, c5nodeB]) 0 false

/-- C5 counterexample: on a collapsed root with a resolved cache the tree's
total height is 1, yet findNodeWithOffset at offset 2 is not undefined -
the fold unconditionally descends into the cached (hidden) children and
returns the node with identity b. -/
theorem c5_counterexample :
    height c5P c5badRoot = 1 ∧
    (findNodeWithOffset c5P c5badRoot 2).isSome = true ∧
    (findNodeWithOffset c5P c5badRoot 2).map (fun n => n.viewNode.nodeUri) =
      some (some "b") :=
  ⟨rfl, rfl, rfl⟩

/-- C5 amended: for every tree and every identity present among the
currently visible rows, findNodeOffset resolves it to the offset of its
first visible occurrence and findNodeWithOffset maps that offset back to
a node with the same identity; findNodeWithOffset is undefined for every
offset at or beyond the tree's total height provided the root is expanded
(with a collapsed root holding a resolved cache the lookup can still
descend into hidden children - the counterexample); and findNodeOffset is
undefined for every identity not in the current expanded projection. -/
theorem c5_amended (P : Provider) (root : Node) (v : NodeView) (k : Nat) :
    (v.underlying.nodeUri ∈
        (collectVisibleNodes P root).map (fun r => r.underlying.nodeUri) →
      ∃ i m, findNodeOffset P root v = some i ∧
        findNodeWithOffset P root i = some m ∧
        m.viewNode.nodeUri = v.underlying.nodeUri) ∧
    (root.expanded = true → height P root ≤ k →
      findNodeWithOffset P root k = none) ∧
    (v.underlying.nodeUri ∉
        (collectVisibleNodes P root).map (fun r => r.underlying.nodeUri) →
      findNodeOffset P root v = none) := by
  have hmap : (collectVisibleNodes P root).map (fun r => r.underlying.nodeUri) =
      (visList P root).map (fun n => n.viewNode.nodeUri) := by
    rw [collect_eq_map, List.map_map]
    rfl
  refine ⟨?_, ?_, ?_⟩
  · intro hmem
    rw [hmap] at hmem
    obtain ⟨m, hmem', hm⟩ := List.mem_map.mp hmem
    have hsome := firstMatchIdx_isSome v.underlying.nodeUri (visList P root) m hmem' hm
    obtain ⟨i, hi⟩ := Option.isSome_iff_exists.mp hsome
    obtain ⟨hlen, m', hget, hm'⟩ :=
      firstMatchIdx_spec v.underlying.nodeUri (visList P root) i hi
    refine ⟨i, m', ?_, ?_, hm'⟩
    · rw [findNodeOffset_char, hi]
    · rw [show findNodeWithOffset P root i = findNodeWithOffsetInternal P root i from rfl]
      rw [visList_length P root] at hlen
      rw [fwoi_get P root i hlen]
      exact hget
  · intro he hk
    exact fwoi_ge_height P root k he hk
  · intro hmem
    rw [hmap] at hmem
    rw [findNodeOffset_char]
    apply firstMatchIdx_none
    intro m hm hcontra
    exact hmem (List.mem_map.mpr ⟨m, hm, hcontra⟩)

/-- An expanded root over the same two resolved children. -/
def c5root : Node := .mk c5vnR 0 true (some [c5nodeA, c5nodeB]) 0 false

/-- The visible view of the node with identity b. -/
def c5v : NodeView :=
  { underlying := c5vnB, level := 1, expandable := false, expanded := false }

/-- C5 witness: the amended statement evaluated on a concrete expanded
tree with visible rows root, a, b: the identity b round-trips through
findNodeOffset and findNodeWithOffset, and offset 3 (the total height) is
undefined. -/
theorem c5_witness :
    (∃ i m, findNodeOffset c5P c5root c5v = some i ∧
      findNodeWithOffset c5P c5root i = some m ∧
      m.viewNode.nodeUri = c5v.underlying.nodeUri) ∧
    findNodeWithOffset c5P c5root 3 = none := by
  have h := c5_amended c5P c5root c5v 3
  exact ⟨h.1 (by decide), h.2.1 rfl (by decide)⟩
